import Mathlib

/-!
Shallow embedding of `build/registry/pkg/oci/requirements.go` (the requirement
extractors of the plugins registry) together with the parts of the
`github.com/blang/semver` (v3) library that it calls: `Parse`, `ParseTolerant`
and `Version.String`.

Go strings are modelled as lists of runes (`List Char`); every separator the
code splits on is a single ASCII character, where byte positions and rune
positions agree.  File I/O and shared-library loading are external
collaborators: the embedding takes their outcome as an explicit argument
(`Except` value) instead of performing the effect.
-/

/-- A Go string, as its sequence of runes. -/
abbrev GoStr := List Char

/-- `strings.Index`-style first-occurrence split: `splitFirst sep s` returns
`some (before, after)` where `before ++ sep :: after = s` and `sep ∉ before`,
or `none` when `sep` does not occur.  It models the
`strings.IndexRune` + slicing pattern of blang/semver's `Parse`. -/
def splitFirst (sep : Char) : GoStr → Option (GoStr × GoStr)
  | [] => none
  | c :: cs =>
    if c = sep then some ([], cs)
    else (splitFirst sep cs).map (fun p => (c :: p.1, p.2))

/-- Accumulator loop for `goSplit`. -/
def goSplitAux (sep : Char) : GoStr → GoStr → List GoStr
  | acc, [] => [acc.reverse]
  | acc, c :: cs =>
    if c = sep then acc.reverse :: goSplitAux sep [] cs
    else goSplitAux sep (c :: acc) cs

/-- Go `strings.Split(s, sep)` for a single-character separator. -/
def goSplit (sep : Char) (s : GoStr) : List GoStr := goSplitAux sep [] s

/-- Go `strings.SplitN(s, sep, n)` for a single-character separator:
at most `n` fields, the last field keeps the unsplit remainder. -/
def goSplitN (sep : Char) : Nat → GoStr → List GoStr
  | 0, _ => []
  | 1, s => [s]
  | n + 2, s =>
    match splitFirst sep s with
    | none => [s]
    | some (b, a) => b :: goSplitN sep (n + 1) a

/-- Go `strings.Join(parts, sep)` for a single-character separator. -/
def joinSep (sep : Char) : List GoStr → GoStr
  | [] => []
  | [p] => p
  | p :: q :: ps => p ++ sep :: joinSep sep (q :: ps)

/-- Go `unicode.IsSpace`: the Unicode white-space runes. -/
def goIsSpace (c : Char) : Bool :=
  c = ' ' || c = '\t' || c = '\n' || c = Char.ofNat 11 || c = Char.ofNat 12 ||
  c = '\r' || c = Char.ofNat 133 || c = Char.ofNat 160 || c = Char.ofNat 5760 ||
  (8192 ≤ c.toNat && c.toNat ≤ 8202) || c = Char.ofNat 8232 ||
  c = Char.ofNat 8233 || c = Char.ofNat 8239 || c = Char.ofNat 8287 ||
  c = Char.ofNat 12288

/-- Go `strings.TrimSpace`: drop white space from both ends. -/
def goTrimSpace (s : GoStr) : GoStr :=
  ((s.dropWhile goIsSpace).reverse.dropWhile goIsSpace).reverse

/-- Go `strings.TrimPrefix(s, "v")`, the only trim the semver library does. -/
def trimLeadingV (s : GoStr) : GoStr :=
  if "v".toList.isPrefixOf s then s.drop 1 else s

/-- Go `strings.ContainsAny(s, chars)`. -/
def goContainsAny (s chars : GoStr) : Bool := s.any (fun c => chars.contains c)

/-- A Go `for ... { append }` loop over a list where each element is produced
by a fallible call and the first failure aborts: used for the prerelease and
build loops of blang/semver's `Parse`. -/
def seqMap {α β : Type} (f : α → Option β) : List α → Option (List β)
  | [] => some []
  | a :: as =>
    match f a with
    | none => none
    | some b =>
      match seqMap f as with
      | none => none
      | some bs => some (b :: bs)

namespace Semver

/-- blang/semver v3 character class `numbers`. -/
def numbers : GoStr := "0123456789".toList

/-- blang/semver v3 character class `alphas` (note: it includes `-`). -/
def alphas : GoStr :=
  "abcdefghijklmnopqrstuvwxyzABCDEFGHIJKLMNOPQRSTUVWXYZ-".toList

/-- blang/semver v3 character class `alphanum = alphas + numbers`. -/
def alphanum : GoStr := alphas ++ numbers

/-- blang/semver `containsOnly(s, set)`: every rune of `s` lies in `set`. -/
def containsOnly (s set : GoStr) : Bool := s.all (fun c => set.contains c)

/-- blang/semver `hasLeadingZeroes(s)`: `len(s) > 1 && strings.HasPrefix(s, "0")`. -/
def hasLeadingZeroes (s : GoStr) : Bool :=
  decide (1 < s.length) && "0".toList.isPrefixOf s

/-- The numeric value of a decimal digit string (left fold, as a decimal
reader computes it). -/
def digitsVal (s : GoStr) : Nat := s.foldl (fun a c => 10 * a + (c.toNat - 48)) 0

/-- Go `strconv.ParseUint(s, 10, 64)`: fails on the empty string, on any
non-digit rune, and on overflow past `2^64 - 1`. -/
def goParseUint (s : GoStr) : Option Nat :=
  if s.isEmpty then none
  else if containsOnly s numbers then
    if digitsVal s < 18446744073709551616 then some (digitsVal s) else none
  else none

/-- Fuel-indexed decimal printer; `fuel > n` makes it total.  Models Go
`strconv.AppendUint(b, n, 10)` (most significant digit first, no sign,
no leading zeroes). -/
def uintDecAux : Nat → Nat → GoStr
  | 0, _ => []
  | fuel + 1, n =>
    if n < 10 then [Nat.digitChar n]
    else uintDecAux fuel (n / 10) ++ [Nat.digitChar (n % 10)]

/-- Decimal representation of an unsigned integer, as in `strconv.FormatUint`. -/
def uintDec (n : Nat) : GoStr := uintDecAux (n + 1) n

/-- blang/semver `PRVersion`: a prerelease component, numeric
(`IsNum = true`, `VersionNum`) or alphanumeric (`VersionStr`). -/
inductive PRVersion where
  | num : Nat → PRVersion
  | str : GoStr → PRVersion
deriving DecidableEq, Repr

/-- blang/semver `Version`. -/
structure Version where
  major : Nat
  minor : Nat
  patch : Nat
  pre : List PRVersion
  build : List GoStr
deriving DecidableEq, Repr

/-- The numeric-component check that `Parse` performs (three times, for
major, minor and patch): `containsOnly` digits, no leading zeroes, then
`strconv.ParseUint`. -/
def parseNum (s : GoStr) : Option Nat :=
  if containsOnly s numbers = false then none
  else if hasLeadingZeroes s then none
  else goParseUint s

/-- blang/semver `NewPRVersion`. -/
def newPRVersion (s : GoStr) : Option PRVersion :=
  if s.isEmpty then none
  else if containsOnly s numbers then
    if hasLeadingZeroes s then none
    else (goParseUint s).map PRVersion.num
  else if containsOnly s alphanum then some (PRVersion.str s)
  else none

/-- The per-component check of `Parse`'s build-metadata loop: nonempty and
alphanumeric, kept verbatim. -/
def checkBuild (s : GoStr) : Option GoStr :=
  if s.isEmpty then none
  else if containsOnly s alphanum = false then none
  else some s

/-- `patchStr = patchStr[:buildIndex]` of `Parse` (cut at the first `+`;
unchanged when there is none). -/
def buildCut (p : GoStr) : GoStr :=
  match splitFirst '+' p with
  | none => p
  | some (b, _) => b

/-- `build = strings.Split(patchStr[buildIndex+1:], ".")` of `Parse`
(`[]` when there is no `+`, matching the skipped loop over a nil slice). -/
def buildPartsOf (p : GoStr) : List GoStr :=
  match splitFirst '+' p with
  | none => []
  | some (_, a) => goSplit '.' a

/-- `patchStr = patchStr[:preIndex]` of `Parse` (cut at the first `-` of the
part left of `+`). -/
def preCut (p : GoStr) : GoStr :=
  match splitFirst '-' p with
  | none => p
  | some (b, _) => b

/-- `prerelease = strings.Split(patchStr[preIndex+1:], ".")` of `Parse`. -/
def prePartsOf (p : GoStr) : List GoStr :=
  match splitFirst '-' p with
  | none => []
  | some (_, a) => goSplit '.' a

/-- blang/semver v3 `Parse`: strict semantic-version parsing.  The source
performs its checks sequentially with early returns; since every failure is
collapsed to `none`, evaluating the independent pieces in one five-way match
returns the same value. -/
def goSemverParse (s : GoStr) : Option Version :=
  if s.isEmpty then none
  else
    match goSplitN '.' 3 s with
    | [p0, p1, p2] =>
      match parseNum p0, parseNum p1, parseNum (preCut (buildCut p2)),
            seqMap newPRVersion (prePartsOf (buildCut p2)),
            seqMap checkBuild (buildPartsOf p2) with
      | some major, some minor, some patch, some pre, some build =>
        some ⟨major, minor, patch, pre, build⟩
      | _, _, _, _, _ => none
    | _ => none

/-- blang/semver v3 `ParseTolerant`: trim space, strip a leading `v`, pad a
short (fewer than three dot-separated fields) version with `"0"` fields —
unless the last field carries prerelease/build metadata — then `Parse`. -/
def goParseTolerant (s : GoStr) : Option Version :=
  let s1 := trimLeadingV (goTrimSpace s)
  let parts := goSplitN '.' 3 s1
  if parts.length < 3 then
    if goContainsAny (parts.getLastD []) ("+-".toList) then none
    else goSemverParse (joinSep '.' (parts ++ List.replicate (3 - parts.length) ("0".toList)))
  else goSemverParse s1

/-- blang/semver `PRVersion.String`. -/
def prString : PRVersion → GoStr
  | .num n => uintDec n
  | .str s => s

/-- The shape invariant every prerelease component produced by
`newPRVersion` satisfies: numeric components fit in 64 bits, string
components are nonempty, alphanumeric and not purely numeric. -/
def WFPre : PRVersion → Prop
  | .num n => n < 18446744073709551616
  | .str s => s ≠ [] ∧ containsOnly s alphanum = true ∧ containsOnly s numbers = false

/-- The shape invariant every `Version` produced by `goSemverParse`
satisfies: 64-bit numeric components, well-formed prerelease components,
nonempty alphanumeric build components. -/
def WFVersion (v : Version) : Prop :=
  v.major < 18446744073709551616 ∧ v.minor < 18446744073709551616 ∧
  v.patch < 18446744073709551616 ∧ (∀ p ∈ v.pre, WFPre p) ∧
  ∀ b ∈ v.build, b ≠ [] ∧ containsOnly b alphanum = true

/-- The `-`-prefixed, `.`-joined prerelease block `Version.String` appends
(empty when there are no prerelease components). -/
def preBlockOf (v : Version) : GoStr :=
  if v.pre = [] then [] else '-' :: joinSep '.' (v.pre.map prString)

/-- The `+`-prefixed, `.`-joined build block `Version.String` appends
(empty when there are no build components). -/
def buildBlockOf (v : Version) : GoStr :=
  if v.build = [] then [] else '+' :: joinSep '.' v.build

/-- blang/semver `Version.String`: `major.minor.patch`, then `-`-joined
prerelease components and `+`-joined build components when present. -/
def semverString (v : Version) : GoStr :=
  uintDec v.major ++
    ('.' :: (uintDec v.minor ++
      ('.' :: (uintDec v.patch ++ preBlockOf v ++ buildBlockOf v))))

end Semver

namespace Oci

/-- Modelled from the spec: the fixed engine-version requirement key owned by
the shared naming collaborator (`build/registry/pkg/common`, not under
`src/`).  The claims depend only on it being a fixed identifier, not on its
text. -/
def EngineVersionKey : GoStr := "engine_version".toList

/-- Modelled from the spec: the fixed plugin-API-version requirement key owned
by the shared naming collaborator (`build/registry/pkg/common`, not under
`src/`). -/
def PluginAPIVersion : GoStr := "plugin_api_version".toList

/-- Modelled from the spec: the `(name, version)` requirement pair of the
external artifact model (`falcoctl/pkg/oci.ArtifactRequirement`). -/
structure ArtifactRequirement where
  name : GoStr
  version : GoStr
deriving DecidableEq, Repr

/-- The error values `requirements.go` can return, by kind, carrying the data
the source interpolates into each message (`errorMessage` renders the text).
`reqNotFound` is the error that wraps the sentinel `ErrReqNotFound` with `%w`,
hence matchable by callers via `errors.Is`. -/
inductive ReqError where
  | fileOpen : GoStr → ReqError
  | reqNotFound : GoStr → ReqError
  | versionParse : GoStr → ReqError
  | pluginLoad : GoStr → GoStr → ReqError
deriving DecidableEq, Repr

/-- Go `%q` formatting of a string: faithful for strings of printable ASCII
without `"` or `\` (every string the claims exercise); `strconv.Quote`
escaping of other runes is immaterial here. -/
def goQuote (s : GoStr) : GoStr := '"' :: (s ++ ['"'])

/-- The text of the sentinel `ErrReqNotFound = errors.New("requirements not found")`. -/
def errReqNotFoundText : GoStr := "requirements not found".toList

/-- The message each error renders to, following the `fmt.Errorf` format
strings of the source.  Note `fileOpen`: the source formats the *file handle*
(`%v` applied to `file`, which is nil whenever `os.Open` fails, printing
`<nil>`) instead of the open error `err`, so the underlying cause never
reaches the message. -/
def errorMessage : ReqError → GoStr
  | .fileOpen path =>
      "unable to open file ".toList ++ goQuote path ++ ": <nil>".toList
  | .reqNotFound path =>
      "requirements for rulesfile ".toList ++ goQuote path ++
        (':' :: (' ' :: errReqNotFoundText))
  | .versionParse tok =>
      "unable to parse requirement ".toList ++ goQuote tok ++
        ": expected a numeric value or a valid semver string".toList
  | .pluginLoad path cause =>
      "unable to open plugin ".toList ++ goQuote path ++ (':' :: (' ' :: cause))

/-- Outcome of running one of the Go functions: a returned value, a returned
error, or a runtime fault (the out-of-range index panic that `tokens[1]`
raises when the split produced fewer than two fields). -/
inductive GoResult (α : Type) where
  | ok : α → GoResult α
  | error : ReqError → GoResult α
  | fault : GoResult α
deriving DecidableEq, Repr

/-- Whether the outcome is an error *returned* to the caller (as opposed to a
successful return or a runtime fault). -/
def GoResult.isReturnedError {α : Type} : GoResult α → Bool
  | .error _ => true
  | _ => false

/-- `rulesEngineAnchor = "- required_engine_version"`. -/
def rulesEngineAnchor : GoStr := "- required_engine_version".toList

/-- `rulesfileRequirement` of `requirements.go`.

The collaborators are explicit arguments:
* `openResult` is the outcome of `os.Open` + `bufio.Scanner`: `.error cause`
  when the file could not be opened (with the cause `err` would render to),
  `.ok scannedLines` with the lines the scanner yielded before it stopped.
* `scanStoppedByError` records whether the scanner stopped because of a read
  error rather than end-of-file.  The source never calls `fileScanner.Err()`,
  so the flag is never consulted.

The loop body keeps the first line with the anchor prefix in `requirement`
and breaks; the source then re-reads the same line via `fileScanner.Text()`,
so the split below applies to `requirement`. -/
def rulesfileRequirement (filePath : GoStr) (openResult : Except GoStr (List GoStr))
    (_scanStoppedByError : Bool) : GoResult ArtifactRequirement :=
  match openResult with
  | .error _cause => .error (.fileOpen filePath)
  | .ok scannedLines =>
    let requirement := (scannedLines.find? (fun l => rulesEngineAnchor.isPrefixOf l)).getD []
    if requirement = [] then .error (.reqNotFound filePath)
    else
      let tokens := goSplit ':' requirement
      match tokens[1]? with
      | none => .fault
      | some tok =>
        match Semver.goSemverParse tok with
        | some reqVer => .ok ⟨EngineVersionKey, Semver.semverString reqVer⟩
        | none =>
          match Semver.goParseTolerant tok with
          | none => .error (.versionParse tok)
          | some reqVer =>
            .ok ⟨EngineVersionKey, Semver.semverString ⟨0, reqVer.major, 0, [], []⟩⟩

/-- The plugin metadata the loader collaborator
(`plugin-sdk-go/pkg/loader`) reports: `plugin.Info().RequiredAPIVersion`. -/
structure PluginInfo where
  requiredAPIVersion : GoStr
deriving DecidableEq, Repr

/-- `pluginRequirement` of `requirements.go`; `loaderResult` is the outcome of
`loader.NewPlugin(filePath)` together with the loaded plugin's `Info()`. -/
def pluginRequirement (filePath : GoStr) (loaderResult : Except GoStr PluginInfo) :
    GoResult ArtifactRequirement :=
  match loaderResult with
  | .error cause => .error (.pluginLoad filePath cause)
  | .ok plugin => .ok ⟨PluginAPIVersion, plugin.requiredAPIVersion⟩

/-- `containsSub hay needle`: `needle` occurs contiguously inside `hay`
(Go `strings.Contains`). -/
def containsSub (hay needle : GoStr) : Bool :=
  (List.range (hay.length + 1)).any (fun i => needle.isPrefixOf (hay.drop i))

end Oci

/-! ## Lemmas about the string helpers -/

theorem splitFirst_eq_none {sep : Char} {l : GoStr} (h : sep ∉ l) :
    splitFirst sep l = none := by
  induction l with
  | nil => rfl
  | cons c cs ih =>
    have hc : ¬ c = sep := by rintro rfl; exact h (List.mem_cons_self _ _)
    have h2 : sep ∉ cs := fun hm => h (List.mem_cons_of_mem _ hm)
    simp [splitFirst, hc, ih h2]

theorem splitFirst_append {sep : Char} {A : GoStr} (B : GoStr) (h : sep ∉ A) :
    splitFirst sep (A ++ sep :: B) = some (A, B) := by
  induction A with
  | nil => simp [splitFirst]
  | cons c cs ih =>
    have hc : ¬ c = sep := by rintro rfl; exact h (List.mem_cons_self _ _)
    have h2 : sep ∉ cs := fun hm => h (List.mem_cons_of_mem _ hm)
    simp [splitFirst, hc, ih h2]

theorem goSplitAux_no_sep {sep : Char} {l : GoStr} (acc : GoStr) (h : sep ∉ l) :
    goSplitAux sep acc l = [acc.reverse ++ l] := by
  induction l generalizing acc with
  | nil => simp [goSplitAux]
  | cons c cs ih =>
    have hc : ¬ c = sep := by rintro rfl; exact h (List.mem_cons_self _ _)
    have h2 : sep ∉ cs := fun hm => h (List.mem_cons_of_mem _ hm)
    simp [goSplitAux, hc, ih (c :: acc) h2]

theorem goSplit_no_sep {sep : Char} {l : GoStr} (h : sep ∉ l) :
    goSplit sep l = [l] := by
  simpa using goSplitAux_no_sep [] h

theorem goSplitAux_append {sep : Char} {A : GoStr} (B acc : GoStr) (h : sep ∉ A) :
    goSplitAux sep acc (A ++ sep :: B) = (acc.reverse ++ A) :: goSplit sep B := by
  induction A generalizing acc with
  | nil => simp [goSplitAux, goSplit]
  | cons c cs ih =>
    have hc : ¬ c = sep := by rintro rfl; exact h (List.mem_cons_self _ _)
    have h2 : sep ∉ cs := fun hm => h (List.mem_cons_of_mem _ hm)
    simp [goSplitAux, hc, ih (c :: acc) h2]

theorem goSplit_append {sep : Char} {A : GoStr} (B : GoStr) (h : sep ∉ A) :
    goSplit sep (A ++ sep :: B) = A :: goSplit sep B := by
  simpa using goSplitAux_append B [] h

theorem not_mem_joinSep {c sep : Char} {parts : List GoStr} (hc : c ≠ sep)
    (h : ∀ p ∈ parts, c ∉ p) : c ∉ joinSep sep parts := by
  induction parts with
  | nil => simp [joinSep]
  | cons p ps ih =>
    cases ps with
    | nil => simpa [joinSep] using h p (List.mem_cons_self _ _)
    | cons q qs =>
      simp only [joinSep, List.mem_append, List.mem_cons]
      push_neg
      refine ⟨h p (List.mem_cons_self _ _), hc, ?_⟩
      exact ih (fun r hr => h r (List.mem_cons_of_mem _ hr))

theorem goSplit_joinSep {sep : Char} {parts : List GoStr} (hne : parts ≠ [])
    (h : ∀ p ∈ parts, sep ∉ p) : goSplit sep (joinSep sep parts) = parts := by
  induction parts with
  | nil => exact absurd rfl hne
  | cons p ps ih =>
    cases ps with
    | nil => simp [joinSep, goSplit_no_sep (h p (List.mem_cons_self _ _))]
    | cons q qs =>
      rw [show joinSep sep (p :: q :: qs) = p ++ sep :: joinSep sep (q :: qs) from rfl]
      rw [goSplit_append _ (h p (List.mem_cons_self _ _))]
      rw [ih (by simp) (fun r hr => h r (List.mem_cons_of_mem _ hr))]

theorem goSplitN_three {sep : Char} {A B : GoStr} (C : GoStr) (hA : sep ∉ A)
    (hB : sep ∉ B) :
    goSplitN sep 3 (A ++ sep :: (B ++ sep :: C)) = [A, B, C] := by
  have e3 : goSplitN sep 3 (A ++ sep :: (B ++ sep :: C)) =
      A :: goSplitN sep 2 (B ++ sep :: C) := by
    show (match splitFirst sep (A ++ sep :: (B ++ sep :: C)) with
          | none => [A ++ sep :: (B ++ sep :: C)]
          | some (b, a) => b :: goSplitN sep 2 a) = _
    rw [splitFirst_append _ hA]
  have e2 : goSplitN sep 2 (B ++ sep :: C) = B :: goSplitN sep 1 C := by
    show (match splitFirst sep (B ++ sep :: C) with
          | none => [B ++ sep :: C]
          | some (b, a) => b :: goSplitN sep 1 a) = _
    rw [splitFirst_append _ hB]
  rw [e3, e2]; rfl

/-! ## Lemmas about character classes and the decimal printer -/

namespace Semver

theorem mem_of_containsOnly {s set : GoStr} (h : containsOnly s set = true)
    {c : Char} (hc : c ∈ s) : c ∈ set := by
  simp only [containsOnly, List.all_eq_true] at h
  simpa [List.contains, List.elem_iff] using h c hc

theorem not_mem_of_containsOnly {s set : GoStr} (h : containsOnly s set = true)
    {c : Char} (hcset : c ∉ set) : c ∉ s :=
  fun hc => hcset (mem_of_containsOnly h hc)

theorem digitChar_mem_numbers {m : Nat} (h : m < 10) :
    Nat.digitChar m ∈ numbers := by
  interval_cases m <;> decide

theorem digitChar_val {m : Nat} (h : m < 10) : (Nat.digitChar m).toNat - 48 = m := by
  interval_cases m <;> decide

theorem digitChar_ne_zero {m : Nat} (h1 : 1 ≤ m) (h : m < 10) :
    Nat.digitChar m ≠ '0' := by
  interval_cases m <;> decide

theorem uintDecAux_ne_nil {fuel n : Nat} (h : n < fuel) : uintDecAux fuel n ≠ [] := by
  cases fuel with
  | zero => omega
  | succ m =>
    simp only [uintDecAux]
    split <;> simp

theorem uintDecAux_digits {fuel n : Nat} (h : n < fuel) :
    containsOnly (uintDecAux fuel n) numbers = true := by
  induction fuel generalizing n with
  | zero => omega
  | succ m ih =>
    simp only [uintDecAux]
    split
    · rename_i h10
      simp only [containsOnly, List.all_cons, List.all_nil, Bool.and_true]
      simpa [List.contains, List.elem_iff] using digitChar_mem_numbers h10
    · rename_i h10
      have hdiv : n / 10 < n := Nat.div_lt_self (by omega) (by omega)
      have hm : n / 10 < m := by omega
      simp only [containsOnly, List.all_append, List.all_cons, List.all_nil,
        Bool.and_true] at ih ⊢
      rw [Bool.and_eq_true]
      refine ⟨ih hm, ?_⟩
      simpa [List.contains, List.elem_iff] using
        digitChar_mem_numbers (Nat.mod_lt n (by omega))

theorem uintDecAux_val {fuel n : Nat} (h : n < fuel) :
    digitsVal (uintDecAux fuel n) = n := by
  induction fuel generalizing n with
  | zero => omega
  | succ m ih =>
    simp only [uintDecAux]
    split
    · rename_i h10
      simp [digitsVal, digitChar_val h10]
    · rename_i h10
      have hdiv : n / 10 < n := Nat.div_lt_self (by omega) (by omega)
      have hm : n / 10 < m := by omega
      simp only [digitsVal, List.foldl_append, List.foldl_cons, List.foldl_nil]
      have hv : List.foldl (fun a c => 10 * a + (c.toNat - 48)) 0 (uintDecAux m (n / 10)) = n / 10 :=
        ih hm
      rw [hv, digitChar_val (Nat.mod_lt n (by omega))]
      omega

theorem uintDecAux_head {fuel n : Nat} (h : n < fuel) (h1 : 1 ≤ n) :
    (uintDecAux fuel n).head? ≠ some '0' := by
  induction fuel generalizing n with
  | zero => omega
  | succ m ih =>
    simp only [uintDecAux]
    split
    · rename_i h10
      simpa using digitChar_ne_zero h1 h10
    · rename_i h10
      have hdiv : n / 10 < n := Nat.div_lt_self (by omega) (by omega)
      have hm : n / 10 < m := by omega
      have h1' : 1 ≤ n / 10 := Nat.le_div_iff_mul_le (by omega) |>.mpr (by omega)
      have hne := uintDecAux_ne_nil hm
      obtain ⟨c, cs, hcs⟩ := List.exists_cons_of_ne_nil hne
      have := ih hm h1'
      rw [hcs] at this ⊢
      simpa using this

theorem uintDec_ne_nil (n : Nat) : uintDec n ≠ [] :=
  uintDecAux_ne_nil (Nat.lt_succ_self n)

theorem uintDec_digits (n : Nat) : containsOnly (uintDec n) numbers = true :=
  uintDecAux_digits (Nat.lt_succ_self n)

theorem uintDec_val (n : Nat) : digitsVal (uintDec n) = n :=
  uintDecAux_val (Nat.lt_succ_self n)

theorem uintDec_no_leading_zeroes (n : Nat) : hasLeadingZeroes (uintDec n) = false := by
  by_cases h : n < 10
  · have he : uintDec n = [Nat.digitChar n] := by
      simp [uintDec, uintDecAux, h]
    simp [he, hasLeadingZeroes]
  · have h1 : 1 ≤ n := by omega
    have hh : (uintDec n).head? ≠ some '0' := uintDecAux_head (Nat.lt_succ_self n) h1
    obtain ⟨c, cs, hcs⟩ := List.exists_cons_of_ne_nil (uintDec_ne_nil n)
    rw [hcs] at hh
    have hc : c ≠ '0' := by simpa using hh
    have hbeq : ('0' == c) = false := by
      simpa [beq_iff_eq] using fun he => hc he.symm
    rw [hcs]
    simp [hasLeadingZeroes, List.isPrefixOf, hbeq]

theorem goParseUint_uintDec {n : Nat} (h : n < 18446744073709551616) :
    goParseUint (uintDec n) = some n := by
  have hne := uintDec_ne_nil n
  have hemp : (uintDec n).isEmpty = false := List.isEmpty_eq_false.mpr hne
  rw [goParseUint, hemp]
  simp only [Bool.false_eq_true, if_false, uintDec_digits n, if_true]
  rw [uintDec_val n]
  simp [h]

theorem parseNum_uintDec {n : Nat} (h : n < 18446744073709551616) :
    parseNum (uintDec n) = some n := by
  rw [parseNum, uintDec_digits n]
  simp only [Bool.true_eq_false, if_false]
  rw [uintDec_no_leading_zeroes n]
  simp only [Bool.false_eq_true, if_false]
  exact goParseUint_uintDec h

end Semver

/-! ## The shape invariant of parsed versions -/

theorem seqMap_mem {α β : Type} {f : α → Option β} {l : List α} {bs : List β}
    (h : seqMap f l = some bs) : ∀ b ∈ bs, ∃ a ∈ l, f a = some b := by
  induction l generalizing bs with
  | nil =>
    rw [seqMap] at h
    injection h with h
    subst h
    simp
  | cons a as ih =>
    rw [seqMap] at h
    cases hfa : f a with
    | none => rw [hfa] at h; exact absurd h (by simp)
    | some b0 =>
      rw [hfa] at h
      cases hrec : seqMap f as with
      | none => rw [hrec] at h; exact absurd h (by simp)
      | some bs0 =>
        rw [hrec] at h
        injection h with h
        subst h
        intro b hb
        rcases List.mem_cons.mp hb with rfl | hb2
        · exact ⟨a, List.mem_cons_self _ _, hfa⟩
        · obtain ⟨a2, ha2, hfa2⟩ := ih hrec b hb2
          exact ⟨a2, List.mem_cons_of_mem _ ha2, hfa2⟩

theorem seqMap_isSome {α β : Type} {f : α → Option β} {l : List α}
    (h : ∀ a ∈ l, (f a).isSome = true) : (seqMap f l).isSome = true := by
  induction l with
  | nil => simp [seqMap]
  | cons a as ih =>
    rw [seqMap]
    obtain ⟨b, hb⟩ := Option.isSome_iff_exists.mp (h a (List.mem_cons_self _ _))
    obtain ⟨bs, hbs⟩ :=
      Option.isSome_iff_exists.mp (ih (fun x hx => h x (List.mem_cons_of_mem _ hx)))
    rw [hb, hbs]
    rfl

namespace Semver

theorem goParseUint_lt {s : GoStr} {n : Nat} (h : goParseUint s = some n) :
    n < 18446744073709551616 := by
  rw [goParseUint] at h
  split at h
  · exact absurd h (by simp)
  · split at h
    · split at h
      · rename_i hlt
        injection h with h
        omega
      · exact absurd h (by simp)
    · exact absurd h (by simp)

theorem parseNum_lt {s : GoStr} {n : Nat} (h : parseNum s = some n) :
    n < 18446744073709551616 := by
  rw [parseNum] at h
  split at h
  · exact absurd h (by simp)
  · split at h
    · exact absurd h (by simp)
    · exact goParseUint_lt h

theorem newPRVersion_WF {s : GoStr} {p : PRVersion} (h : newPRVersion s = some p) :
    WFPre p := by
  rw [newPRVersion] at h
  split at h
  · exact absurd h (by simp)
  · rename_i hne
    split at h
    · split at h
      · exact absurd h (by simp)
      · cases hg : goParseUint s with
        | none => rw [hg] at h; exact absurd h (by simp)
        | some n =>
          rw [hg] at h
          simp only [Option.map_some'] at h
          injection h with h
          subst h
          exact goParseUint_lt hg
    · rename_i hnotnum
      split at h
      · rename_i halpha
        injection h with h
        subst h
        refine ⟨fun he => by simp [he] at hne, halpha, ?_⟩
        simpa using hnotnum
      · exact absurd h (by simp)

theorem checkBuild_some {s b : GoStr} (h : checkBuild s = some b) :
    b ≠ [] ∧ containsOnly b alphanum = true := by
  rw [checkBuild] at h
  split at h
  · exact absurd h (by simp)
  · rename_i hne
    split at h
    · exact absurd h (by simp)
    · rename_i halpha
      injection h with h
      subst h
      refine ⟨fun he => by simp [he] at hne, ?_⟩
      simpa using halpha

theorem goSemverParse_WF {s : GoStr} {v : Version} (h : goSemverParse s = some v) :
    WFVersion v := by
  rw [goSemverParse] at h
  split at h
  · exact absurd h (by simp)
  · split at h
    · rename_i p0 p1 p2
      split at h
      · rename_i major minor patch pre build h0 h1 h2 h3 h4
        injection h with h
        subst h
        refine ⟨parseNum_lt h0, parseNum_lt h1, parseNum_lt h2, ?_, ?_⟩
        · intro p hp
          obtain ⟨a, _, hfa⟩ := seqMap_mem h3 p hp
          exact newPRVersion_WF hfa
        · intro b hb
          obtain ⟨a, _, hfa⟩ := seqMap_mem h4 b hb
          exact checkBuild_some hfa
      · exact absurd h (by simp)
    · exact absurd h (by simp)

theorem goParseTolerant_WF {s : GoStr} {v : Version} (h : goParseTolerant s = some v) :
    WFVersion v := by
  simp only [goParseTolerant] at h
  split at h
  · split at h
    · exact absurd h (by simp)
    · exact goSemverParse_WF h
  · exact goSemverParse_WF h

end Semver

/-! ## `Version.String` round-trips through `Parse` (validity of outputs) -/

theorem seqMap_id_of {α : Type} {f : α → Option α} {l : List α}
    (h : ∀ a ∈ l, f a = some a) : seqMap f l = some l := by
  induction l with
  | nil => rfl
  | cons a as ih =>
    rw [seqMap, h a (List.mem_cons_self _ _),
      ih (fun x hx => h x (List.mem_cons_of_mem _ hx))]

theorem seqMap_map_id {α β : Type} {f : β → Option α} {g : α → β} {l : List α}
    (h : ∀ a ∈ l, f (g a) = some a) : seqMap f (l.map g) = some l := by
  induction l with
  | nil => rfl
  | cons a as ih =>
    rw [List.map_cons, seqMap, h a (List.mem_cons_self _ _),
      ih (fun x hx => h x (List.mem_cons_of_mem _ hx))]

namespace Semver

theorem checkBuild_of {b : GoStr} (hne : b ≠ [])
    (ha : containsOnly b alphanum = true) : checkBuild b = some b := by
  simp [checkBuild, List.isEmpty_eq_false.mpr hne, ha]

theorem newPRVersion_prString {p : PRVersion} (h : WFPre p) :
    newPRVersion (prString p) = some p := by
  cases p with
  | num n =>
    have hlt : n < 18446744073709551616 := h
    have hemp : (uintDec n).isEmpty = false :=
      List.isEmpty_eq_false.mpr (uintDec_ne_nil n)
    rw [show prString (PRVersion.num n) = uintDec n from rfl, newPRVersion, hemp]
    simp only [Bool.false_eq_true, if_false]
    rw [uintDec_digits n]
    simp only [if_true]
    rw [uintDec_no_leading_zeroes n]
    simp only [Bool.false_eq_true, if_false]
    rw [goParseUint_uintDec hlt]
    rfl
  | str s =>
    obtain ⟨hne, halpha, hnotnum⟩ := h
    have hemp : s.isEmpty = false := List.isEmpty_eq_false.mpr hne
    rw [show prString (PRVersion.str s) = s from rfl, newPRVersion, hemp, hnotnum, halpha]
    simp

theorem prString_no_dot {p : PRVersion} (h : WFPre p) : '.' ∉ prString p := by
  cases p with
  | num n => exact not_mem_of_containsOnly (uintDec_digits n) (by decide)
  | str s => exact not_mem_of_containsOnly h.2.1 (by decide)

theorem prString_no_plus {p : PRVersion} (h : WFPre p) : '+' ∉ prString p := by
  cases p with
  | num n => exact not_mem_of_containsOnly (uintDec_digits n) (by decide)
  | str s => exact not_mem_of_containsOnly h.2.1 (by decide)

theorem plus_not_mem_preBlockOf {v : Version} (h4 : ∀ p ∈ v.pre, WFPre p) :
    '+' ∉ preBlockOf v := by
  rw [preBlockOf]
  split
  · simp
  · simp only [List.mem_cons]
    push_neg
    refine ⟨by decide, not_mem_joinSep (by decide) ?_⟩
    intro q hq
    obtain ⟨p, hp, rfl⟩ := List.mem_map.mp hq
    exact prString_no_plus (h4 p hp)

theorem build_block_facts {v : Version}
    (h5 : ∀ b ∈ v.build, b ≠ [] ∧ containsOnly b alphanum = true)
    {X : GoStr} (hX : '+' ∉ X) :
    buildCut (X ++ buildBlockOf v) = X ∧
    seqMap checkBuild (buildPartsOf (X ++ buildBlockOf v)) = some v.build := by
  rcases hbe : v.build with _ | ⟨b0, bs⟩
  · rw [buildBlockOf, hbe]
    simp only [if_true, List.append_nil]
    rw [buildCut, buildPartsOf, splitFirst_eq_none hX]
    exact ⟨rfl, rfl⟩
  · rw [buildBlockOf, hbe]
    simp only [if_neg (List.cons_ne_nil b0 bs)]
    rw [buildCut, buildPartsOf, splitFirst_append _ hX]
    refine ⟨rfl, ?_⟩
    show seqMap checkBuild (goSplit '.' (joinSep '.' (b0 :: bs))) = some (b0 :: bs)
    have hparts : goSplit '.' (joinSep '.' (b0 :: bs)) = b0 :: bs := by
      refine goSplit_joinSep (List.cons_ne_nil _ _) ?_
      intro b hb
      have hmem : b ∈ v.build := by rw [hbe]; exact hb
      exact not_mem_of_containsOnly (h5 b hmem).2 (by decide)
    rw [hparts]
    refine seqMap_id_of ?_
    intro b hb
    have hmem : b ∈ v.build := by rw [hbe]; exact hb
    exact checkBuild_of (h5 b hmem).1 (h5 b hmem).2

theorem pre_block_facts {v : Version} (h4 : ∀ p ∈ v.pre, WFPre p)
    {X : GoStr} (hX : '-' ∉ X) :
    preCut (X ++ preBlockOf v) = X ∧
    seqMap newPRVersion (prePartsOf (X ++ preBlockOf v)) = some v.pre := by
  rcases hpe : v.pre with _ | ⟨p0, ps⟩
  · rw [preBlockOf, hpe]
    simp only [if_true, List.append_nil]
    rw [preCut, prePartsOf, splitFirst_eq_none hX]
    exact ⟨rfl, rfl⟩
  · rw [preBlockOf, hpe]
    simp only [if_neg (List.cons_ne_nil p0 ps)]
    rw [preCut, prePartsOf, splitFirst_append _ hX]
    refine ⟨rfl, ?_⟩
    show seqMap newPRVersion (goSplit '.' (joinSep '.' ((p0 :: ps).map prString))) =
      some (p0 :: ps)
    have hparts : goSplit '.' (joinSep '.' ((p0 :: ps).map prString)) =
        (p0 :: ps).map prString := by
      refine goSplit_joinSep (by simp) ?_
      intro q hq
      obtain ⟨p, hp, rfl⟩ := List.mem_map.mp hq
      have hmem : p ∈ v.pre := by rw [hpe]; exact hp
      exact prString_no_dot (h4 p hmem)
    rw [hparts]
    have hall : ∀ p ∈ p0 :: ps, newPRVersion (prString p) = some p := by
      intro p hp
      have hmem : p ∈ v.pre := by rw [hpe]; exact hp
      exact newPRVersion_prString (h4 p hmem)
    exact seqMap_map_id hall

end Semver

namespace Semver

theorem semverString_valid {v : Version} (h : WFVersion v) :
    (goSemverParse (semverString v)).isSome = true := by
  obtain ⟨h1, h2, h3, h4, h5⟩ := h
  have hdotA : '.' ∉ uintDec v.major :=
    not_mem_of_containsOnly (uintDec_digits _) (by decide)
  have hdotB : '.' ∉ uintDec v.minor :=
    not_mem_of_containsOnly (uintDec_digits _) (by decide)
  have hdashC : '-' ∉ uintDec v.patch :=
    not_mem_of_containsOnly (uintDec_digits _) (by decide)
  have hplusC : '+' ∉ uintDec v.patch :=
    not_mem_of_containsOnly (uintDec_digits _) (by decide)
  have hplusX : '+' ∉ uintDec v.patch ++ preBlockOf v := by
    rw [List.mem_append]
    push_neg
    exact ⟨hplusC, plus_not_mem_preBlockOf h4⟩
  obtain ⟨hbc, hbs⟩ := build_block_facts h5 hplusX
  obtain ⟨hpc, hps⟩ := pre_block_facts h4 hdashC
  have e2 : parseNum (preCut (buildCut
      (uintDec v.patch ++ preBlockOf v ++ buildBlockOf v))) = some v.patch := by
    rw [hbc, hpc]
    exact parseNum_uintDec h3
  have e3 : seqMap newPRVersion (prePartsOf (buildCut
      (uintDec v.patch ++ preBlockOf v ++ buildBlockOf v))) = some v.pre := by
    rw [hbc]
    exact hps
  have hsplit : goSplitN '.' 3 (semverString v) =
      [uintDec v.major, uintDec v.minor,
        uintDec v.patch ++ preBlockOf v ++ buildBlockOf v] := by
    rw [semverString]
    exact goSplitN_three _ hdotA hdotB
  have hne : (semverString v).isEmpty = false := by
    rw [List.isEmpty_eq_false, semverString]
    intro he
    exact uintDec_ne_nil v.major (List.append_eq_nil.mp he).1
  rw [goSemverParse, hne]
  simp only [Bool.false_eq_true, if_false]
  split
  · rename_i p0 p1 p2 heq
    have hlists := hsplit.symm.trans heq
    injection hlists with ha hlists
    injection hlists with hb hlists
    injection hlists with hc _
    subst ha hb hc
    split
    · rfl
    · rename_i hcontra
      exact (hcontra v.major v.minor v.patch v.pre v.build
        (parseNum_uintDec h1) (parseNum_uintDec h2) e2 e3 hbs).elim
  · rename_i hcontra
    exact (hcontra _ _ _ hsplit).elim

/-- Every version the extractor can return is well formed: either it came out
of a successful parse, or it is the tolerant-path remap `0.major.0` of one. -/
theorem WFVersion_remap {v : Version} (h : WFVersion v) :
    WFVersion ⟨0, v.major, 0, [], []⟩ := by
  obtain ⟨h1, _, _, _, _⟩ := h
  exact ⟨by norm_num, by simpa using h1, by norm_num, by simp, by simp⟩

end Semver

/-! ## Lemmas about the extractor -/

namespace Oci

theorem anchor_line_ne_nil {l : GoStr} (h : rulesEngineAnchor.isPrefixOf l = true) :
    l ≠ [] := by
  cases l with
  | nil => revert h; decide
  | cons c cs => simp

theorem containsSub_of_append (A p B : GoStr) :
    containsSub (A ++ p ++ B) p = true := by
  rw [containsSub, List.any_eq_true]
  refine ⟨A.length, ?_, ?_⟩
  · rw [List.mem_range, List.length_append, List.length_append]
    omega
  · rw [List.append_assoc, List.drop_left]
    exact List.isPrefixOf_iff_prefix.mpr (List.prefix_append p B)

theorem containsSub_goQuote (pre p post : GoStr) :
    containsSub (pre ++ goQuote p ++ post) p = true := by
  have he : pre ++ goQuote p ++ post = (pre ++ ['"']) ++ p ++ ('"' :: post) := by
    simp [goQuote]
  rw [he]
  exact containsSub_of_append _ _ _

end Oci

/-! ## The claims -/

/-- C1: for every rules file whose first anchor-prefixed line is
`- required_engine_version: 3`, `rulesfileRequirement` succeeds and returns
the requirement named `EngineVersionKey` with version `"0.3.0"`: the bare
integer fails strict parsing, tolerant parsing reads it as major `3`, and the
remap turns the major component into the minor one with major and patch
forced to `0`. -/
theorem rules_bare_integer_remap (path : GoStr) (lines : List GoStr) (e : Bool)
    (h : lines.find? (fun l => Oci.rulesEngineAnchor.isPrefixOf l) =
      some ("- required_engine_version: 3".toList)) :
    Oci.rulesfileRequirement path (.ok lines) e =
      .ok ⟨Oci.EngineVersionKey, "0.3.0".toList⟩ := by
  simp only [Oci.rulesfileRequirement, h]
  rfl

/-- Witness for C1 at a concrete two-line rules file. -/
theorem rules_bare_integer_remap_witness :
    Oci.rulesfileRequirement ("rules/falco_rules.yaml".toList)
      (.ok [("- list: shell_binaries".toList),
            ("- required_engine_version: 3".toList)]) false =
      .ok ⟨Oci.EngineVersionKey, "0.3.0".toList⟩ :=
  rules_bare_integer_remap _ _ _ (by decide)

/-- C2 counterexample: on the rules file whose only line is
`- required_engine_version: 1.2.3` (the conventional space after the colon),
the raw token at index 1 is `" 1.2.3"`; the *untrimmed* token fails strict
semantic-version parsing because of the leading space, so the tolerant path
runs and the major-to-minor remap produces `"0.1.0"`, not `"1.2.3"`. -/
theorem rules_semver_space_remapped_counterexample :
    Oci.rulesfileRequirement ("rules.yaml".toList)
      (.ok [("- required_engine_version: 1.2.3".toList)]) false =
      .ok ⟨Oci.EngineVersionKey, "0.1.0".toList⟩ ∧
    Oci.rulesfileRequirement ("rules.yaml".toList)
      (.ok [("- required_engine_version: 1.2.3".toList)]) false ≠
      .ok ⟨Oci.EngineVersionKey, "1.2.3".toList⟩ := by
  constructor
  · rfl
  · decide

/-- C2 as amended: for every rules file whose first anchor-prefixed line is
`- required_engine_version:1.2.3` — no space after the colon, so the raw
token at index 1 is exactly `1.2.3` — `rulesfileRequirement` succeeds and
returns version `"1.2.3"` unchanged, because strict semantic-version parsing
is applied to the raw (untrimmed) token and succeeds; with the conventional
space the token is ` 1.2.3`, strict parsing fails, and the tolerant path
remaps the result to `"0.1.0"`. -/
theorem rules_semver_no_space_verbatim (path : GoStr) (lines : List GoStr)
    (e : Bool)
    (h : lines.find? (fun l => Oci.rulesEngineAnchor.isPrefixOf l) =
      some ("- required_engine_version:1.2.3".toList)) :
    Oci.rulesfileRequirement path (.ok lines) e =
      .ok ⟨Oci.EngineVersionKey, "1.2.3".toList⟩ := by
  simp only [Oci.rulesfileRequirement, h]
  rfl

/-- Witness for the amended C2 at a concrete one-line rules file. -/
theorem rules_semver_no_space_verbatim_witness :
    Oci.rulesfileRequirement ("rules.yaml".toList)
      (.ok [("- required_engine_version:1.2.3".toList)]) false =
      .ok ⟨Oci.EngineVersionKey, "1.2.3".toList⟩ :=
  rules_semver_no_space_verbatim _ _ _ (by decide)

/-- C3: for every rules file in which no line begins with the anchor prefix
`- required_engine_version`, `rulesfileRequirement` fails with the
distinguished `reqNotFound` error kind (the wrap of the sentinel
`ErrReqNotFound`, matchable by callers), and the rendered message contains
the file path. -/
theorem rules_missing_anchor_not_found (path : GoStr) (lines : List GoStr)
    (e : Bool)
    (h : ∀ l ∈ lines, Oci.rulesEngineAnchor.isPrefixOf l = false) :
    Oci.rulesfileRequirement path (.ok lines) e =
      .error (.reqNotFound path) ∧
    Oci.containsSub (Oci.errorMessage (.reqNotFound path)) path = true := by
  constructor
  · have hf : lines.find? (fun l => Oci.rulesEngineAnchor.isPrefixOf l) = none := by
      rw [List.find?_eq_none]
      intro x hx
      simp [h x hx]
    simp [Oci.rulesfileRequirement, hf]
  · exact Oci.containsSub_goQuote _ _ _

/-- Witness for C3 at a concrete anchorless rules file. -/
theorem rules_missing_anchor_not_found_witness :
    Oci.rulesfileRequirement ("empty_rules.yaml".toList)
      (.ok [("- macro: spawned_process".toList), ("  condition: evt".toList)])
      false =
      .error (.reqNotFound ("empty_rules.yaml".toList)) ∧
    Oci.containsSub
      (Oci.errorMessage (.reqNotFound ("empty_rules.yaml".toList)))
      ("empty_rules.yaml".toList) = true :=
  rules_missing_anchor_not_found _ _ _ (by decide)

/-- C4: whenever the first anchor-prefixed line carries a token (the field at
index 1 after splitting on `:`) that neither strict nor tolerant
semantic-version parsing accepts, `rulesfileRequirement` fails with a
version-parse error; the rendered message contains the raw offending token
and the text `expected a numeric value or a valid semver string`. -/
theorem rules_unparseable_token_error (path : GoStr) (lines : List GoStr)
    (e : Bool) (l tok : GoStr)
    (hf : lines.find? (fun x => Oci.rulesEngineAnchor.isPrefixOf x) = some l)
    (ht : (goSplit ':' l)[1]? = some tok)
    (h1 : Semver.goSemverParse tok = none)
    (h2 : Semver.goParseTolerant tok = none) :
    Oci.rulesfileRequirement path (.ok lines) e =
      .error (.versionParse tok) ∧
    Oci.containsSub (Oci.errorMessage (.versionParse tok)) tok = true ∧
    Oci.containsSub (Oci.errorMessage (.versionParse tok))
      ("expected a numeric value or a valid semver string".toList) = true := by
  have hl : l ≠ [] := by
    have hp := List.find?_some hf
    exact Oci.anchor_line_ne_nil (by simpa using hp)
  refine ⟨?_, ?_, ?_⟩
  · simp only [Oci.rulesfileRequirement, hf, Option.getD_some, if_neg hl, ht,
      h1, h2]
  · exact Oci.containsSub_goQuote _ _ _
  · have he : Oci.errorMessage (.versionParse tok) =
        ("unable to parse requirement ".toList ++ Oci.goQuote tok ++ (':' :: [' '])) ++
          "expected a numeric value or a valid semver string".toList ++ [] := by
      simp [Oci.errorMessage]
    rw [he]
    exact Oci.containsSub_of_append _ _ _

/-- Witness for C4: the anchor line `- required_engine_version: notaversion`
(raw token ` notaversion`) yields the parse error, whose message contains
both the token and the expectation text. -/
theorem rules_unparseable_token_error_witness :
    Oci.rulesfileRequirement ("rules.yaml".toList)
      (.ok [("- required_engine_version: notaversion".toList)]) false =
      .error (.versionParse (" notaversion".toList)) ∧
    Oci.containsSub (Oci.errorMessage (.versionParse (" notaversion".toList)))
      (" notaversion".toList) = true ∧
    Oci.containsSub (Oci.errorMessage (.versionParse (" notaversion".toList)))
      ("expected a numeric value or a valid semver string".toList) = true :=
  rules_unparseable_token_error ("rules.yaml".toList)
    [("- required_engine_version: notaversion".toList)] false
    ("- required_engine_version: notaversion".toList) (" notaversion".toList)
    (by decide) (by decide) (by decide) (by decide)

/-- C5 counterexample: on a rules file whose anchor line is exactly
`- required_engine_version` (no `:` anywhere), the split yields a single
field and the unconditional `tokens[1]` access does **not** produce a parse
error returned to the caller — the call faults (Go: index-out-of-range
runtime panic). -/
theorem rules_no_colon_fault_counterexample :
    Oci.rulesfileRequirement ("rules.yaml".toList)
      (.ok [("- required_engine_version".toList)]) false = .fault ∧
    (Oci.rulesfileRequirement ("rules.yaml".toList)
      (.ok [("- required_engine_version".toList)]) false).isReturnedError
      = false := by
  constructor
  · rfl
  · rfl

/-- C5 as amended: if the first anchor-prefixed line of a rules file contains
no `:` character, splitting it on `:` yields a single field, and the
unconditional index-1 access faults with an index-out-of-range runtime panic;
no parse error is returned to the caller and no silent default occurs. -/
theorem rules_no_colon_faults (path : GoStr) (lines : List GoStr) (e : Bool)
    (l : GoStr)
    (hf : lines.find? (fun x => Oci.rulesEngineAnchor.isPrefixOf x) = some l)
    (hc : ':' ∉ l) :
    Oci.rulesfileRequirement path (.ok lines) e = .fault := by
  have hl : l ≠ [] := by
    have hp := List.find?_some hf
    exact Oci.anchor_line_ne_nil (by simpa using hp)
  have hs : goSplit ':' l = [l] := goSplit_no_sep hc
  simp only [Oci.rulesfileRequirement, hf, Option.getD_some, if_neg hl, hs]
  rfl

/-- Witness for the amended C5 at a concrete colon-free anchor line. -/
theorem rules_no_colon_faults_witness :
    Oci.rulesfileRequirement ("rules.yaml".toList)
      (.ok [("- required_engine_version".toList)]) true = .fault :=
  rules_no_colon_faults ("rules.yaml".toList)
    [("- required_engine_version".toList)] true
    ("- required_engine_version".toList) (by decide) (by decide)

/-- C6: for every rules file in which lines free of the anchor prefix are
followed by `- required_engine_version: 1` and then arbitrary further lines
— in particular files that contain a later `- required_engine_version: 2`
anchor line — only the first anchor line is used: the scan stops there and
the result is version `"0.1.0"`. -/
theorem rules_first_anchor_wins (path : GoStr) (pre post : List GoStr)
    (e : Bool)
    (hpre : ∀ l ∈ pre, Oci.rulesEngineAnchor.isPrefixOf l = false)
    (_hpost : ∃ l ∈ post, Oci.rulesEngineAnchor.isPrefixOf l = true) :
    Oci.rulesfileRequirement path
      (.ok (pre ++ ("- required_engine_version: 1".toList) :: post)) e =
      .ok ⟨Oci.EngineVersionKey, "0.1.0".toList⟩ := by
  have hf : (pre ++ ("- required_engine_version: 1".toList) :: post).find?
      (fun l => Oci.rulesEngineAnchor.isPrefixOf l) =
      some ("- required_engine_version: 1".toList) := by
    rw [List.find?_append]
    have hnone : pre.find? (fun l => Oci.rulesEngineAnchor.isPrefixOf l) = none := by
      rw [List.find?_eq_none]
      intro x hx
      simp [hpre x hx]
    rw [hnone, List.find?_cons_of_pos _ (by decide)]
    rfl
  simp only [Oci.rulesfileRequirement, hf]
  rfl

/-- Witness for C6: a file carrying both `: 1` and a later `: 2` anchor line
resolves to `"0.1.0"`. -/
theorem rules_first_anchor_wins_witness :
    Oci.rulesfileRequirement ("rules.yaml".toList)
      (.ok ([("- macro: open_write".toList)] ++
        ("- required_engine_version: 1".toList) ::
        [("- required_engine_version: 2".toList)])) false =
      .ok ⟨Oci.EngineVersionKey, "0.1.0".toList⟩ :=
  rules_first_anchor_wins ("rules.yaml".toList)
    [("- macro: open_write".toList)]
    [("- required_engine_version: 2".toList)] false (by decide)
    ⟨("- required_engine_version: 2".toList), by decide⟩

/-- C7 (the open-failure path, evaluated at the failing input): when the
rules file cannot be opened, the call fails with the `fileOpen` error kind
carrying the path, with no retry — but the rendered message is
`unable to open file "...": <nil>`: the source interpolates the nil file
handle (`%v` applied to `file`) instead of the open error `err`, so the
underlying cause (`no such file or directory`) never appears in the message,
for any cause the operating system reports. -/
theorem rules_open_error_drops_cause :
    Oci.rulesfileRequirement ("/no/such/file.yaml".toList)
      (.error ("open /no/such/file.yaml: no such file or directory".toList))
      false = .error (.fileOpen ("/no/such/file.yaml".toList)) ∧
    (∀ cause : GoStr,
      Oci.rulesfileRequirement ("/no/such/file.yaml".toList) (.error cause)
        false = .error (.fileOpen ("/no/such/file.yaml".toList))) ∧
    Oci.errorMessage (.fileOpen ("/no/such/file.yaml".toList)) =
      "unable to open file \"/no/such/file.yaml\": <nil>".toList ∧
    Oci.containsSub (Oci.errorMessage (.fileOpen ("/no/such/file.yaml".toList)))
      ("no such file or directory".toList) = false ∧
    Oci.containsSub (Oci.errorMessage (.fileOpen ("/no/such/file.yaml".toList)))
      ("/no/such/file.yaml".toList) = true := by
  refine ⟨rfl, fun cause => rfl, by decide, by decide, by decide⟩

/-- C8: for every plugin path the loader collaborator opens successfully,
`pluginRequirement` returns the requirement named `PluginAPIVersion` whose
version is the loader-declared `RequiredAPIVersion` string verbatim — no
parsing, validation or normalization is applied to it. -/
theorem plugin_api_version_verbatim (path : GoStr) (info : Oci.PluginInfo) :
    Oci.pluginRequirement path (.ok info) =
      .ok ⟨Oci.PluginAPIVersion, info.requiredAPIVersion⟩ := rfl

/-- C9: whenever `rulesfileRequirement` succeeds, the version field of the
returned requirement is a syntactically valid semantic-version string — it is
accepted by the strict semver grammar (`MAJOR.MINOR.PATCH` with the optional
`-prerelease`/`+build` parts the grammar admits) — even when the token found
in the file was a bare integer. -/
theorem rules_success_version_valid_semver (path : GoStr)
    (o : Except GoStr (List GoStr)) (e : Bool) (r : Oci.ArtifactRequirement)
    (h : Oci.rulesfileRequirement path o e = .ok r) :
    (Semver.goSemverParse r.version).isSome = true := by
  cases o with
  | error c => exact absurd h (by simp [Oci.rulesfileRequirement])
  | ok lines =>
    simp only [Oci.rulesfileRequirement] at h
    split at h
    · exact absurd h (by simp)
    · split at h
      · exact absurd h (by simp)
      · rename_i tok
        split at h
        · rename_i reqVer heq
          injection h with h
          rw [← h]
          exact Semver.semverString_valid (Semver.goSemverParse_WF heq)
        · split at h
          · exact absurd h (by simp)
          · rename_i reqVer heq
            injection h with h
            rw [← h]
            exact Semver.semverString_valid
              (Semver.WFVersion_remap (Semver.goParseTolerant_WF heq))

/-- Witness for C9: the requirement extracted from a concrete rules file has
a version accepted by the strict semver parser. -/
theorem rules_success_version_valid_semver_witness :
    (Semver.goSemverParse
      ((⟨Oci.EngineVersionKey, "0.3.0".toList⟩ :
        Oci.ArtifactRequirement)).version).isSome = true :=
  rules_success_version_valid_semver ("f.yaml".toList)
    (.ok [("- required_engine_version: 3".toList)]) false
    ⟨Oci.EngineVersionKey, "0.3.0".toList⟩ (by decide)

/-- C10: the extractor never inspects why the line scanner stopped — the
source never calls `fileScanner.Err()`.  If the scanner stops before
reaching an anchor-prefixed line for a reason other than end-of-file
(`scanStoppedByError = true`), the result is still the `reqNotFound` error
for the path, and in general the result is independent of the flag, so no
distinct read-error outcome is ever produced. -/
theorem rules_scan_error_ignored (path : GoStr) (yielded : List GoStr)
    (e : Bool)
    (h : ∀ l ∈ yielded, Oci.rulesEngineAnchor.isPrefixOf l = false) :
    Oci.rulesfileRequirement path (.ok yielded) true =
      .error (.reqNotFound path) ∧
    Oci.rulesfileRequirement path (.ok yielded) e =
      Oci.rulesfileRequirement path (.ok yielded) true := by
  constructor
  · have hf : yielded.find? (fun l => Oci.rulesEngineAnchor.isPrefixOf l) = none := by
      rw [List.find?_eq_none]
      intro x hx
      simp [h x hx]
    simp [Oci.rulesfileRequirement, hf]
  · rfl

/-- Witness for C10: a scanner that stopped early (error flag set) after
yielding one anchorless line still reports `reqNotFound`. -/
theorem rules_scan_error_ignored_witness :
    Oci.rulesfileRequirement ("big_rules.yaml".toList)
      (.ok [("- macro: truncated before the scanner buffer limit".toList)])
      true = .error (.reqNotFound ("big_rules.yaml".toList)) ∧
    Oci.rulesfileRequirement ("big_rules.yaml".toList)
      (.ok [("- macro: truncated before the scanner buffer limit".toList)])
      false =
      Oci.rulesfileRequirement ("big_rules.yaml".toList)
        (.ok [("- macro: truncated before the scanner buffer limit".toList)])
        true :=
  rules_scan_error_ignored ("big_rules.yaml".toList)
    [("- macro: truncated before the scanner buffer limit".toList)] false
    (by decide)
